import Mathlib

/-!
Shallow embedding of the token-conflict analysis found in
src/build_tables/token_conflicts.rs, together with theorems settling the
behavioural claims about it.

The file is organised as: data model of the external collaborators
(character sets, symbols, the automaton cursor, the lexical grammar),
then the functions of token_conflicts.rs translated one by one, then
concrete instances used as evaluation inputs, then the theorems.

Machine integers: the Rust code compares i32 precedences and never does
arithmetic on them, so they are modelled as Int; usize indices and u32
state ids are modelled as Nat.  Fallible operations (Vec indexing, which
panics when out of range in Rust) return Option; the worklist search is
given explicit fuel and reports running out of it separately from a
panic.
-/

namespace TokenConflicts

/-- Modelled from the spec: the character-range set collaborator
(nfa.rs CharacterSet is not part of the sources).  It is an opaque set
of code points supporting empty, union and an intersection test; we
represent the set extensionally by a list of member code points. -/
structure CharacterSet where
  chars : List Nat
deriving DecidableEq

def CharacterSet.empty : CharacterSet := ⟨[]⟩

def CharacterSet.add (a b : CharacterSet) : CharacterSet := ⟨a.chars ++ b.chars⟩

def CharacterSet.does_intersect (a b : CharacterSet) : Bool :=
  a.chars.any (fun c => b.chars.contains c)

/-- Modelled from the spec: a follow-set entry is a symbol reference
(rules.rs Symbol is not part of the sources); only whether the symbol
is a terminal and its index among the tokens are consumed here. -/
structure Symbol where
  is_terminal : Bool
  index : Nat
deriving DecidableEq

/-- Modelled from the spec: an externally supplied follow-set
(item.rs LookaheadSet is not part of the sources), iterated as an
ordered collection of symbols. -/
structure LookaheadSet where
  symbols : List Symbol
deriving DecidableEq

/-- Modelled from the spec: one token definition of the lexical grammar
(grammars.rs is not part of the sources).  Only the fields consumed by
token_conflicts.rs are modelled: the explicit grammar-authored implicit
precedence and the start state in the shared automaton.  The name and
kind fields are unused by this subsystem and omitted. -/
structure Variable where
  implicit_precedence : Int
  start_state : Nat

/-- Modelled from the spec: the lexical grammar collaborator
(grammars.rs is not part of the sources): the token list and the
state-to-owning-token lookup. -/
structure LexicalGrammar where
  «variables» : List Variable
  variable_index_for_nfa_state : Nat → Nat

/-- Modelled from the spec: the shared automaton cursor collaborator
(nfa.rs NfaCursor is not part of the sources).  Its reset-then-query
protocol is modelled by pure functions from the state set the cursor
was reset to: successor transitions from a state set, completions
(token id and precedence) at a state set, and grouped successors
(character group, advance precedence, next state set, in-separator
flag) at a state set. -/
structure NfaCursor where
  successors : List Nat → List (CharacterSet × Int × List Nat × Bool)
  completions : List Nat → List (Nat × Int)
  grouped_successors : List Nat → List (CharacterSet × Int × List Nat × Bool)

/-- The four per-ordered-pair conflict facts, as in the source struct. -/
structure TokenConflictStatus where
  does_overlap : Bool
  does_match_valid_continuation : Bool
  does_match_separators : Bool
  matches_same_string : Bool
deriving DecidableEq

/-- The Default impl derived in the source: all four flags false. -/
def TokenConflictStatus.default : TokenConflictStatus := ⟨false, false, false, false⟩

/-- The conflict matrix, as in the source struct (the borrowed grammar is
stored by value here). -/
structure TokenConflictMap where
  n : Nat
  status_matrix : List TokenConflictStatus
  starting_chars_by_index : List CharacterSet
  following_chars_by_index : List CharacterSet
  grammar : LexicalGrammar

/-- matrix_index from the source: row-major flat index. -/
def matrix_index (variable_count i j : Nat) : Nat :=
  variable_count * i + j

/-- prefer_token from the source.  Rust indexes grammar.variables with the
two ordinals, which panics out of range; that indexing is only reached
when the explicit precedences are equal, hence the Option appears only
on that path.  The Ordering match on implicit precedences is rendered
as the equivalent comparison chain. -/
def TokenConflictMap.prefer_token (grammar : LexicalGrammar) (left right : Int × Nat) :
    Option Bool :=
  if left.1 > right.1 then some true
  else if left.1 < right.1 then some false
  else
    match grammar.variables[left.2]?, grammar.variables[right.2]? with
    | some lv, some rv =>
      if lv.implicit_precedence < rv.implicit_precedence then some false
      else if rv.implicit_precedence < lv.implicit_precedence then some true
      else some (decide (left.2 < right.2))
    | _, _ => none

/-- Spec-side restatement of the preference rule, written from the words of
the specification (higher explicit precedence, then higher implicit
precedence, then lower ordinal), for comparison with prefer_token. -/
def prefer_token_spec (grammar : LexicalGrammar) (left right : Int × Nat) : Prop :=
  left.1 > right.1 ∨
  (left.1 = right.1 ∧
    ((grammar.variables.getD left.2 ⟨0, 0⟩).implicit_precedence >
      (grammar.variables.getD right.2 ⟨0, 0⟩).implicit_precedence ∨
     ((grammar.variables.getD left.2 ⟨0, 0⟩).implicit_precedence =
       (grammar.variables.getD right.2 ⟨0, 0⟩).implicit_precedence ∧
      left.2 < right.2)))

instance (g : LexicalGrammar) (l r : Int × Nat) : Decidable (prefer_token_spec g l r) := by
  unfold prefer_token_spec
  infer_instance

/-- get_starting_chars from the source: for each token, reset to its start
state and union the character sets of all successor transitions. -/
def get_starting_chars (cursor : NfaCursor) (grammar : LexicalGrammar) :
    List CharacterSet :=
  grammar.variables.map fun v =>
    (cursor.successors [v.start_state]).foldl
      (fun all_chars t => all_chars.add t.1) CharacterSet.empty

/-- The body of the follow-set loop of get_following_chars: fold the
symbols, adding the starting characters of each terminal symbol;
starting_chars is indexed with the symbol index, which panics when out
of range in Rust, hence the Option. -/
def add_following (starting_chars : List CharacterSet) :
    List Symbol → CharacterSet → Option CharacterSet
  | [], chars => some chars
  | token :: rest, chars =>
    if token.is_terminal then
      match starting_chars[token.index]? with
      | none => none
      | some cs => add_following starting_chars rest (chars.add cs)
    else
      add_following starting_chars rest chars

/-- get_following_chars from the source: map the per-token follow-sets to
character sets. -/
def get_following_chars (starting_chars : List CharacterSet) :
    List LookaheadSet → Option (List CharacterSet)
  | [] => some []
  | ft :: rest =>
    match add_following starting_chars ft.symbols CharacterSet.empty with
    | none => none
    | some cs =>
      match get_following_chars starting_chars rest with
      | none => none
      | some out => some (cs :: out)

/-- variable_ids_for_states from the source: map states to owning token
ids, deduplicating adjacent repetitions (prev tracks the most recently
emitted id). -/
def dedup_adjacent (prev : Option Nat) : List Nat → List Nat
  | [] => []
  | x :: xs =>
    if prev = some x then dedup_adjacent prev xs
    else x :: dedup_adjacent (some x) xs

/-- variable_ids_for_states from the source, assembled from the state-to-
token lookup and the adjacent deduplication of the filter_map. -/
def variable_ids_for_states (state_ids : List Nat) (grammar : LexicalGrammar) :
    List Nat :=
  dedup_adjacent none (state_ids.map grammar.variable_index_for_nfa_state)

/-- The if winning_id == i block of the completions loop in
compute_conflict_status: record matches_same_string and does_overlap on
the first component exactly when the winning id is i, else on the
second component. -/
def record_completion_flags (i winning_id : Nat)
    (result : TokenConflictStatus × TokenConflictStatus) :
    TokenConflictStatus × TokenConflictStatus :=
  if winning_id = i then
    ({ result.1 with matches_same_string := true, does_overlap := true }, result.2)
  else
    (result.1, { result.2 with matches_same_string := true, does_overlap := true })

/-- The completions loop of compute_conflict_status: fold the completions,
keeping the current preferred completion and recording flags whenever a
second distinct token id is found.  prefer_token can panic (Option). -/
def processCompletions (g : LexicalGrammar) (i : Nat) :
    List (Nat × Int) → Option (Nat × Int) →
    TokenConflictStatus × TokenConflictStatus →
    Option (Option (Nat × Int) × (TokenConflictStatus × TokenConflictStatus))
  | [], completion, result => some (completion, result)
  | (id, precedence) :: rest, completion, result =>
    match completion with
    | none => processCompletions g i rest (some (id, precedence)) result
    | some (prev_id, prev_precedence) =>
      if id = prev_id then processCompletions g i rest completion result
      else
        match TokenConflictMap.prefer_token g (prev_precedence, prev_id) (precedence, id) with
        | none => none
        | some true =>
          processCompletions g i rest completion (record_completion_flags i prev_id result)
        | some false =>
          processCompletions g i rest (some (id, precedence))
            (record_completion_flags i id result)

/-- The inner scan of the grouped-successors loop: find, among the
successor set's token ids, whether the completed id occurs (breaking
there) and otherwise the last other id seen. -/
def scanSuccessorIds (completed_id : Nat) (other_id : Option Nat) :
    List Nat → Option Nat × Bool
  | [] => (other_id, false)
  | v :: rest =>
    if v = completed_id then (other_id, true)
    else scanSuccessorIds completed_id (some v) rest

/-- The if winning_id == i block of the grouped-successors loop: record
does_overlap, plus does_match_valid_continuation when the group
intersects the other token's following characters, plus (on the first
component only) does_match_separators when the transition is in a
separator.  The follow-character indexing panics out of range in Rust,
hence the Option. -/
def record_successor_flags (i j : Nat) (following_chars : List CharacterSet)
    (winning_id : Nat) (chars : CharacterSet) (in_sep : Bool)
    (result : TokenConflictStatus × TokenConflictStatus) :
    Option (TokenConflictStatus × TokenConflictStatus) :=
  if winning_id = i then
    match following_chars[j]? with
    | none => none
    | some fc => some
      ({ result.1 with
          does_overlap := true,
          does_match_valid_continuation :=
            result.1.does_match_valid_continuation || chars.does_intersect fc,
          does_match_separators := result.1.does_match_separators || in_sep },
        result.2)
  else
    match following_chars[i]? with
    | none => none
    | some fc => some
      (result.1,
        { result.2 with
          does_overlap := true,
          does_match_valid_continuation :=
            result.2.does_match_valid_continuation || chars.does_intersect fc })

/-- One grouped-successor group of compute_conflict_status: when a
completion exists and the successor set has another token's states but
not the completed token's, decide the local winner by comparing the
advance precedence with the completed precedence (strictly lower means
the completion wins and the advance is suppressed), and record flags on
the winner's side.  Returns can_advance and the updated result pair. -/
def successorGroupStep (g : LexicalGrammar) (i j : Nat)
    (following_chars : List CharacterSet) (completion : Option (Nat × Int))
    (chars : CharacterSet) (advance_precedence : Int) (next_states : List Nat)
    (in_sep : Bool) (result : TokenConflictStatus × TokenConflictStatus) :
    Option (Bool × (TokenConflictStatus × TokenConflictStatus)) :=
  match completion with
  | none => some (true, result)
  | some (completed_id, completed_precedence) =>
    match scanSuccessorIds completed_id none (variable_ids_for_states next_states g) with
    | (some other_id, false) =>
      if advance_precedence < completed_precedence then
        match record_successor_flags i j following_chars completed_id chars in_sep result with
        | none => none
        | some result => some (false, result)
      else
        match record_successor_flags i j following_chars other_id chars in_sep result with
        | none => none
        | some result => some (true, result)
    | _ => some (true, result)

/-- The grouped-successors loop of compute_conflict_status: process each
group, then (when the advance is allowed and the next state set was not
yet visited, with membership decided by equality of the state-id
sequences) mark it visited and push it onto the worklist. -/
def processSuccessors (g : LexicalGrammar) (i j : Nat)
    (following_chars : List CharacterSet) (completion : Option (Nat × Int)) :
    List (CharacterSet × Int × List Nat × Bool) →
    List (List Nat) → List (List Nat) →
    TokenConflictStatus × TokenConflictStatus →
    Option (List (List Nat) × List (List Nat) ×
      (TokenConflictStatus × TokenConflictStatus))
  | [], visited, queue, result => some (visited, queue, result)
  | (chars, advance_precedence, next_states, in_sep) :: rest, visited, queue, result =>
    match successorGroupStep g i j following_chars completion chars advance_precedence
        next_states in_sep result with
    | none => none
    | some (can_advance, result) =>
      if can_advance && !(visited.contains next_states) then
        processSuccessors g i j following_chars completion rest
          (next_states :: visited) (next_states :: queue) result
      else
        processSuccessors g i j following_chars completion rest visited queue result

/-- Outcome of the worklist search: a normal result together with the
ghost trace of the state sets popped from the worklist (recorded for
verification only; the source computes the same result without it), a
panic (out-of-range indexing), or fuel exhaustion. -/
inductive ConflictOutcome where
  | ok (result : TokenConflictStatus × TokenConflictStatus) (trace : List (List Nat))
  | panicked
  | outOfFuel
deriving DecidableEq

/-- The while let Some(state_set) = state_set_queue.pop() loop of
compute_conflict_status.  Each iteration pops a state set (appended to
the ghost trace), discards it when fewer than two distinct tokens are
live in it, and otherwise folds the completions and the grouped
successors exactly as the source does. -/
def conflictLoop (cursor : NfaCursor) (g : LexicalGrammar)
    (following_chars : List CharacterSet) (i j : Nat) :
    Nat → List (List Nat) → List (List Nat) →
    TokenConflictStatus × TokenConflictStatus → List (List Nat) → ConflictOutcome
  | 0, _, _, _, _ => .outOfFuel
  | _ + 1, _, [], result, trace => .ok result trace
  | fuel + 1, visited, state_set :: rest, result, trace =>
    if (variable_ids_for_states state_set g).length > 1 then
      match processCompletions g i (cursor.completions state_set) none result with
      | none => .panicked
      | some (completion, result) =>
        match processSuccessors g i j following_chars completion
            (cursor.grouped_successors state_set) visited rest result with
        | none => .panicked
        | some (visited, queue, result) =>
          conflictLoop cursor g following_chars i j fuel visited queue result
            (trace ++ [state_set])
    else
      conflictLoop cursor g following_chars i j fuel visited rest result
        (trace ++ [state_set])

/-- compute_conflict_status from the source: seed the worklist with the two
tokens' start states (indexing the variables list, which panics out of
range in Rust) and run the search. -/
def compute_conflict_status (fuel : Nat) (cursor : NfaCursor) (g : LexicalGrammar)
    (following_chars : List CharacterSet) (i j : Nat) : ConflictOutcome :=
  match g.variables[i]?, g.variables[j]? with
  | some vi, some vj =>
    conflictLoop cursor g following_chars i j fuel []
      [[vi.start_state, vj.start_state]]
      (TokenConflictStatus.default, TokenConflictStatus.default) []
  | _, _ => .panicked

/-- The index pairs visited by the nested construction loops of
TokenConflictMap::new: i over 0..n outer ascending, j over 0..i inner
ascending. -/
def pairsBelow : Nat → List (Nat × Nat)
  | 0 => []
  | n + 1 => pairsBelow n ++ (List.range n).map (fun j => (n, j))

/-- The matrix-filling loop of TokenConflictMap::new: for each pair,
compute the two statuses and store them at the two index permutations. -/
def buildStatusMatrix (fuel : Nat) (cursor : NfaCursor) (g : LexicalGrammar)
    (following_chars : List CharacterSet) (n : Nat) :
    List (Nat × Nat) → List TokenConflictStatus → Option (List TokenConflictStatus)
  | [], m => some m
  | (i, j) :: rest, m =>
    match compute_conflict_status fuel cursor g following_chars i j with
    | .ok result _ =>
      buildStatusMatrix fuel cursor g following_chars n rest
        ((m.set (matrix_index n i j) result.1).set (matrix_index n j i) result.2)
    | _ => none

/-- TokenConflictMap::new from the source: compute starting and following
characters, then fill the n-by-n status matrix pairwise. -/
def TokenConflictMap.new (fuel : Nat) (cursor : NfaCursor) (grammar : LexicalGrammar)
    (following_tokens : List LookaheadSet) : Option TokenConflictMap :=
  let starting_chars := get_starting_chars cursor grammar
  match get_following_chars starting_chars following_tokens with
  | none => none
  | some following_chars =>
    let n := grammar.variables.length
    match buildStatusMatrix fuel cursor grammar following_chars n (pairsBelow n)
        (List.replicate (n * n) TokenConflictStatus.default) with
    | none => none
    | some status_matrix =>
      some ⟨n, status_matrix, starting_chars, following_chars, grammar⟩

/-- does_match_same_string from the source (Vec indexing as Option). -/
def TokenConflictMap.does_match_same_string (m : TokenConflictMap) (i j : Nat) :
    Option Bool :=
  (m.status_matrix[matrix_index m.n i j]?).map (fun e => e.matches_same_string)

/-- does_conflict from the source (Vec indexing as Option). -/
def TokenConflictMap.does_conflict (m : TokenConflictMap) (i j : Nat) : Option Bool :=
  (m.status_matrix[matrix_index m.n i j]?).map
    (fun e => e.does_match_valid_continuation || e.does_match_separators)

/-- does_overlap from the source (Vec indexing as Option). -/
def TokenConflictMap.does_overlap (m : TokenConflictMap) (i j : Nat) : Option Bool :=
  (m.status_matrix[matrix_index m.n i j]?).map (fun e => e.does_overlap)

/-! Concrete instances used to evaluate the development on closed inputs. -/

/-- A two-token grammar whose token k starts at state k and owns state k. -/
def gTwo : LexicalGrammar := ⟨[⟨0, 0⟩, ⟨0, 1⟩], fun s => s⟩

/-- A one-token grammar. -/
def gOne : LexicalGrammar := ⟨[⟨0, 0⟩], fun s => s⟩

/-- A two-token grammar with distinct implicit precedences. -/
def gPrec : LexicalGrammar := ⟨[⟨5, 0⟩, ⟨3, 1⟩], fun s => s⟩

/-- A cursor with no transitions and no completions. -/
def cEmpty : NfaCursor := ⟨fun _ => [], fun _ => [], fun _ => []⟩

/-- A cursor on which both tokens of gTwo complete at the combined start
set, token 1 with transition precedence 5 and token 0 with 3. -/
def cBothComplete : NfaCursor :=
  ⟨fun _ => [], fun s => if s = [1, 0] then [(1, 5), (0, 3)] else [], fun _ => []⟩

/-- A cursor whose combined start set has itself as its only successor. -/
def cSelfLoop : NfaCursor :=
  ⟨fun _ => [],
   fun _ => [],
   fun s => if s = [1, 0] then [(CharacterSet.empty, 0, [1, 0], false)] else []⟩

/-- The map built from the one-token grammar with an empty follow-set list. -/
def mOne : TokenConflictMap :=
  ⟨1, [TokenConflictStatus.default], [CharacterSet.empty], [], gOne⟩

/-- Two empty follow-sets, one per token of gTwo. -/
def ftsTwo : List LookaheadSet := [⟨[]⟩, ⟨[]⟩]

/-- The map built from gTwo, the empty cursor and ftsTwo. -/
def mTwo : TokenConflictMap :=
  ⟨2, List.replicate 4 TokenConflictStatus.default,
   [CharacterSet.empty, CharacterSet.empty],
   [CharacterSet.empty, CharacterSet.empty], gTwo⟩

/-- A status with only does_overlap set. -/
def statusOverlapOnly : TokenConflictStatus := ⟨true, false, false, false⟩

/-- A two-token map whose stored (1, 0) entry is statusOverlapOnly. -/
def mAlias : TokenConflictMap :=
  ⟨2,
   [TokenConflictStatus.default, TokenConflictStatus.default,
    statusOverlapOnly, TokenConflictStatus.default],
   [], [], gTwo⟩

/-!
Theorems.
-/

/-- C2: for every pair of candidates, prefer_token returns true exactly when
the left explicit precedence is strictly higher, or the explicit
precedences are equal and the left implicit precedence is strictly
higher, or both precedences are equal and the left ordinal is strictly
lower. -/
theorem prefer_token_iff_spec (g : LexicalGrammar) (l r : Int × Nat)
    (hl : l.2 < g.variables.length) (hr : r.2 < g.variables.length) :
    TokenConflictMap.prefer_token g l r = some true ↔ prefer_token_spec g l r := by
  have hlv : g.variables[l.2]? = some (g.variables[l.2]) := List.getElem?_eq_getElem hl
  have hrv : g.variables[r.2]? = some (g.variables[r.2]) := List.getElem?_eq_getElem hr
  have hld : g.variables.getD l.2 ⟨0, 0⟩ = g.variables[l.2] := by
    simp [List.getD_eq_getElem?_getD, hlv]
  have hrd : g.variables.getD r.2 ⟨0, 0⟩ = g.variables[r.2] := by
    simp [List.getD_eq_getElem?_getD, hrv]
  unfold TokenConflictMap.prefer_token prefer_token_spec
  rw [hlv, hrv, hld, hrd]
  dsimp only
  split_ifs with h1 h2 h3 h4 <;> simp <;> omega

/-- C3: the preference rule is a strict ordering on valid candidates:
prefer(a, a) is false, and for distinct candidates exactly one
direction is preferred. -/
theorem prefer_token_strict_order (g : LexicalGrammar) :
    (∀ a : Int × Nat, a.2 < g.variables.length →
      TokenConflictMap.prefer_token g a a = some false) ∧
    (∀ a b : Int × Nat, a.2 < g.variables.length → b.2 < g.variables.length →
      a ≠ b →
      ((TokenConflictMap.prefer_token g a b = some true ∧
          TokenConflictMap.prefer_token g b a = some false) ∨
       (TokenConflictMap.prefer_token g a b = some false ∧
          TokenConflictMap.prefer_token g b a = some true))) := by
  constructor
  · intro a ha
    have hav : g.variables[a.2]? = some (g.variables[a.2]) := List.getElem?_eq_getElem ha
    unfold TokenConflictMap.prefer_token
    rw [hav]
    dsimp only
    split_ifs with h1 h2 h3 h4 <;> simp <;> omega
  · intro a b ha hb hne
    have hav : g.variables[a.2]? = some (g.variables[a.2]) := List.getElem?_eq_getElem ha
    have hbv : g.variables[b.2]? = some (g.variables[b.2]) := List.getElem?_eq_getElem hb
    have hne2 : a.1 ≠ b.1 ∨ a.2 ≠ b.2 := by
      by_contra hc
      push_neg at hc
      exact hne (Prod.ext hc.1 hc.2)
    unfold TokenConflictMap.prefer_token
    rw [hav, hbv]
    dsimp only
    split_ifs with h1 h2 h3 h4 h5 h6 h7 h8 h9 h10 h11 h12 <;> simp <;> omega

/-- C10: the flat index of the invalid pair (0, n) coincides with the index
of the valid pair (1, 0), so the query methods silently return the
stored status of pair (1, 0) for the out-of-range query (0, n). -/
theorem out_of_range_query_aliasing (m : TokenConflictMap)
    (hn : 2 ≤ m.n) (hlen : m.status_matrix.length = m.n * m.n) :
    matrix_index m.n 0 m.n = matrix_index m.n 1 0 ∧
    (m.status_matrix[matrix_index m.n 0 m.n]?).isSome = true ∧
    m.does_overlap 0 m.n = m.does_overlap 1 0 ∧
    m.does_match_same_string 0 m.n = m.does_match_same_string 1 0 ∧
    m.does_conflict 0 m.n = m.does_conflict 1 0 := by
  have hidx : matrix_index m.n 0 m.n = matrix_index m.n 1 0 := by
    simp [matrix_index]
  have hlt : matrix_index m.n 0 m.n < m.status_matrix.length := by
    have h1 : m.n < m.n * m.n := by nlinarith
    simp only [matrix_index, hlen]
    omega
  refine ⟨hidx, ?_, ?_, ?_, ?_⟩
  · rw [List.getElem?_eq_getElem hlt]
    rfl
  · unfold TokenConflictMap.does_overlap
    rw [hidx]
  · unfold TokenConflictMap.does_match_same_string
    rw [hidx]
  · unfold TokenConflictMap.does_conflict
    rw [hidx]

/-- C1 counterexample: on a concrete pair where token i = 1 is deemed the
winner of a completion tie (prefer_token returns true for it), the
matches_same_string and does_overlap flags are recorded on the status
returned for direction i (the first component, stored at entry (i, j)),
while the status for direction j stays all-false — not, as claimed, on
the loser slot directed at the winner. -/
theorem completion_flags_not_on_loser_cex :
    TokenConflictMap.prefer_token gTwo (5, 1) (3, 0) = some true ∧
    compute_conflict_status 5 cBothComplete gTwo [] 1 0 =
      .ok (⟨true, false, false, true⟩, ⟨false, false, false, false⟩) [[1, 0]] := by
  exact ⟨by decide, by decide⟩

/-- C7 counterexample: with a cursor whose combined start set is its own
successor, the seeded start set is popped and processed twice, because
the seed is never inserted into the visited set. -/
theorem seed_processed_twice_cex :
    compute_conflict_status 4 cSelfLoop gTwo [] 1 0 =
      .ok (TokenConflictStatus.default, TokenConflictStatus.default)
        [[1, 0], [1, 0]] ∧
    ([[1, 0], [1, 0]] : List (List Nat)).count [1, 0] = 2 := by
  exact ⟨by decide, by decide⟩

/-- C4 counterexample: the construction entry point performs no length
check: with a one-token grammar and an empty follow-set list (lengths 1
and 0 disagree) it returns a fully built matrix rather than failing. -/
theorem new_succeeds_with_mismatched_lengths_cex :
    gOne.variables.length = 1 ∧ ([] : List LookaheadSet).length = 0 ∧
    TokenConflictMap.new 1 cEmpty gOne [] = some mOne := by
  exact ⟨rfl, rfl, rfl⟩

theorem add_following_mem (sc : List CharacterSet) :
    ∀ (syms : List Symbol) (acc out : CharacterSet),
    add_following sc syms acc = some out →
    ∀ c, c ∈ out.chars ↔
      (c ∈ acc.chars ∨
       ∃ s, s ∈ syms ∧ s.is_terminal = true ∧
         ∃ scs, sc[s.index]? = some scs ∧ c ∈ scs.chars) := by
  intro syms
  induction syms with
  | nil =>
    intro acc out h c
    simp only [add_following, Option.some.injEq] at h
    subst h
    simp
  | cons tok rest ih =>
    intro acc out h c
    by_cases ht : tok.is_terminal
    · simp only [add_following, ht, if_true] at h
      cases hcs : sc[tok.index]? with
      | none => rw [hcs] at h; exact absurd h (by simp)
      | some cs =>
        rw [hcs] at h
        rw [ih (acc.add cs) out h c]
        constructor
        · rintro (hmem | ⟨s, hs, hterm, scs, hscs, hc⟩)
          · rcases List.mem_append.mp hmem with hma | hmc
            · exact Or.inl hma
            · exact Or.inr ⟨tok, List.mem_cons_self _ _, ht, cs, hcs, hmc⟩
          · exact Or.inr ⟨s, List.mem_cons_of_mem _ hs, hterm, scs, hscs, hc⟩
        · rintro (hma | ⟨s, hs, hterm, scs, hscs, hc⟩)
          · exact Or.inl (List.mem_append.mpr (Or.inl hma))
          · rcases List.mem_cons.mp hs with rfl | hs2
            · rw [hcs] at hscs
              cases hscs
              exact Or.inl (List.mem_append.mpr (Or.inr hc))
            · exact Or.inr ⟨s, hs2, hterm, scs, hscs, hc⟩
    · simp only [add_following, ht, if_false] at h
      rw [ih acc out h c]
      constructor
      · rintro (hma | ⟨s, hs, hterm, scs, hscs, hc⟩)
        · exact Or.inl hma
        · exact Or.inr ⟨s, List.mem_cons_of_mem _ hs, hterm, scs, hscs, hc⟩
      · rintro (hma | ⟨s, hs, hterm, scs, hscs, hc⟩)
        · exact Or.inl hma
        · rcases List.mem_cons.mp hs with rfl | hs2
          · exact absurd hterm (by simpa using ht)
          · exact Or.inr ⟨s, hs2, hterm, scs, hscs, hc⟩

theorem add_following_no_terminal (sc : List CharacterSet) :
    ∀ (syms : List Symbol) (acc : CharacterSet),
    (∀ s ∈ syms, s.is_terminal = false) →
    add_following sc syms acc = some acc := by
  intro syms
  induction syms with
  | nil => intro acc _; rfl
  | cons tok rest ih =>
    intro acc hall
    have ht : tok.is_terminal = false := hall tok (List.mem_cons_self _ _)
    simp only [add_following, ht, Bool.false_eq_true, if_false]
    exact ih acc (fun s hs => hall s (List.mem_cons_of_mem _ hs))

theorem get_following_chars_get (sc : List CharacterSet) :
    ∀ (fts : List LookaheadSet) (fcs : List CharacterSet) (k : Nat)
      (ft : LookaheadSet) (cs : CharacterSet),
    get_following_chars sc fts = some fcs →
    fts[k]? = some ft → fcs[k]? = some cs →
    add_following sc ft.symbols CharacterSet.empty = some cs := by
  intro fts
  induction fts with
  | nil =>
    intro fcs k ft cs h hft _
    exact absurd hft (by simp)
  | cons ft0 rest ih =>
    intro fcs k ft cs h hft hcs
    simp only [get_following_chars] at h
    cases ha : add_following sc ft0.symbols CharacterSet.empty with
    | none => rw [ha] at h; exact absurd h (by simp)
    | some cs0 =>
      rw [ha] at h
      cases hr : get_following_chars sc rest with
      | none => rw [hr] at h; exact absurd h (by simp)
      | some out =>
        rw [hr] at h
        simp only [Option.some.injEq] at h
        subst h
        cases k with
        | zero =>
          simp only [List.getElem?_cons_zero, Option.some.injEq] at hft hcs
          subst hft; subst hcs
          exact ha
        | succ k2 =>
          simp only [List.getElem?_cons_succ] at hft hcs
          exact ih out k2 ft cs hr hft hcs

theorem get_following_chars_length (sc : List CharacterSet) :
    ∀ (fts : List LookaheadSet) (fcs : List CharacterSet),
    get_following_chars sc fts = some fcs → fcs.length = fts.length := by
  intro fts
  induction fts with
  | nil =>
    intro fcs h
    simp only [get_following_chars, Option.some.injEq] at h
    subst h; rfl
  | cons ft0 rest ih =>
    intro fcs h
    simp only [get_following_chars] at h
    cases ha : add_following sc ft0.symbols CharacterSet.empty with
    | none => rw [ha] at h; exact absurd h (by simp)
    | some cs0 =>
      rw [ha] at h
      cases hr : get_following_chars sc rest with
      | none => rw [hr] at h; exact absurd h (by simp)
      | some out =>
        rw [hr] at h
        simp only [Option.some.injEq] at h
        subst h
        simp [ih out hr]

theorem record_successor_flags_isSome (i j : Nat) (fcs : List CharacterSet)
    (winning_id : Nat) (chars : CharacterSet) (in_sep : Bool)
    (r : TokenConflictStatus × TokenConflictStatus)
    (hi : i < fcs.length) (hj : j < fcs.length) :
    (record_successor_flags i j fcs winning_id chars in_sep r).isSome = true := by
  unfold record_successor_flags
  split_ifs with hw
  · rw [List.getElem?_eq_getElem hj]
    rfl
  · rw [List.getElem?_eq_getElem hi]
    rfl

/-- C9: a token's following-character set contains exactly the starting
characters of the terminal symbols of its follow-set; non-terminal
entries contribute nothing, and a follow-set without terminal entries
yields the empty character set. -/
theorem following_chars_characterization (sc : List CharacterSet)
    (fts : List LookaheadSet) (fcs : List CharacterSet) (k : Nat)
    (ft : LookaheadSet) (cs : CharacterSet)
    (h : get_following_chars sc fts = some fcs)
    (hft : fts[k]? = some ft) (hcs : fcs[k]? = some cs) :
    (∀ c, c ∈ cs.chars ↔
      ∃ s, s ∈ ft.symbols ∧ s.is_terminal = true ∧
        ∃ scs, sc[s.index]? = some scs ∧ c ∈ scs.chars) ∧
    ((∀ s ∈ ft.symbols, s.is_terminal = false) → cs = CharacterSet.empty) := by
  have ha := get_following_chars_get sc fts fcs k ft cs h hft hcs
  constructor
  · intro c
    rw [add_following_mem sc ft.symbols CharacterSet.empty cs ha c]
    simp [CharacterSet.empty]
  · intro hall
    have h2 := add_following_no_terminal sc ft.symbols CharacterSet.empty hall
    rw [ha] at h2
    exact Option.some.inj h2

/-- C9 witness: evaluated on a concrete follow-set with one non-terminal
and one terminal entry. -/
theorem following_chars_characterization_witness :
    98 ∈ (⟨[98]⟩ : CharacterSet).chars ↔
      ∃ s, s ∈ (⟨[⟨false, 0⟩, ⟨true, 1⟩]⟩ : LookaheadSet).symbols ∧
        s.is_terminal = true ∧
        ∃ scs, ([⟨[97]⟩, ⟨[98]⟩] : List CharacterSet)[s.index]? = some scs ∧
          98 ∈ scs.chars :=
  (following_chars_characterization [⟨[97]⟩, ⟨[98]⟩] [⟨[⟨false, 0⟩, ⟨true, 1⟩]⟩]
    [⟨[98]⟩] 0 ⟨[⟨false, 0⟩, ⟨true, 1⟩]⟩ ⟨[98]⟩ rfl rfl rfl).1 98

/-- C4 amended: the construction entry point performs no length check (see
the counterexample); the only length-sensitive operations are the
per-pair follow-character reads at the pair indices, and these always
succeed whenever both indices are below the follow-character list's
length, which equals the follow-set list's length — in particular
whenever the token list and follow-set list lengths agree. -/
theorem following_access_safe :
    (∀ (sc : List CharacterSet) (fts : List LookaheadSet) (fcs : List CharacterSet),
      get_following_chars sc fts = some fcs → fcs.length = fts.length) ∧
    (∀ (g : LexicalGrammar) (i j : Nat) (fcs : List CharacterSet)
       (completion : Option (Nat × Int)) (chars : CharacterSet)
       (advance_precedence : Int) (next_states : List Nat) (in_sep : Bool)
       (r : TokenConflictStatus × TokenConflictStatus),
       i < fcs.length → j < fcs.length →
       (successorGroupStep g i j fcs completion chars advance_precedence
          next_states in_sep r).isSome = true) := by
  constructor
  · exact fun sc fts fcs h => get_following_chars_length sc fts fcs h
  · intro g i j fcs completion chars advance_precedence next_states in_sep r hi hj
    cases completion with
    | none => rfl
    | some c =>
      obtain ⟨cid, cprec⟩ := c
      unfold successorGroupStep
      dsimp only
      rcases hs : scanSuccessorIds cid none (variable_ids_for_states next_states g)
        with ⟨o, b⟩
      cases o with
      | none => cases b <;> rfl
      | some oid =>
        cases b with
        | true => rfl
        | false =>
          dsimp only
          split_ifs with hp
          · have hsome := record_successor_flags_isSome i j fcs cid chars in_sep r hi hj
            cases hrec : record_successor_flags i j fcs cid chars in_sep r with
            | none => rw [hrec] at hsome; exact absurd hsome (by simp)
            | some rr => rfl
          · have hsome := record_successor_flags_isSome i j fcs oid chars in_sep r hi hj
            cases hrec : record_successor_flags i j fcs oid chars in_sep r with
            | none => rw [hrec] at hsome; exact absurd hsome (by simp)
            | some rr => rfl

/-- C4 amended witness: evaluated on concrete inputs with agreeing lengths. -/
theorem following_access_safe_witness :
    ([⟨[98]⟩] : List CharacterSet).length =
      ([⟨[⟨false, 0⟩, ⟨true, 1⟩]⟩] : List LookaheadSet).length ∧
    (successorGroupStep gTwo 1 0 [CharacterSet.empty, CharacterSet.empty]
      (some (0, 5)) CharacterSet.empty 3 [1] false
      (TokenConflictStatus.default, TokenConflictStatus.default)).isSome = true :=
  ⟨following_access_safe.1 [⟨[97]⟩, ⟨[98]⟩] [⟨[⟨false, 0⟩, ⟨true, 1⟩]⟩] [⟨[98]⟩] rfl,
   following_access_safe.2 gTwo 1 0 [CharacterSet.empty, CharacterSet.empty]
     (some (0, 5)) CharacterSet.empty 3 [1] false
     (TokenConflictStatus.default, TokenConflictStatus.default)
     (by decide) (by decide)⟩

/-- C1 corrected: whenever the completions fold decides a winner between
two distinct completing tokens, the matches_same_string and does_overlap
flags are recorded on the status of the winner's direction: on the first
(i-directed) component exactly when the winner is i, otherwise on the
second; likewise a successor dispute records does_overlap on the
winner's component. -/
theorem conflict_flags_on_winner_slot :
    (∀ (g : LexicalGrammar) (i id prev_id : Nat) (precedence prev_precedence : Int)
       (rest : List (Nat × Int)) (r : TokenConflictStatus × TokenConflictStatus)
       (b : Bool),
       id ≠ prev_id →
       TokenConflictMap.prefer_token g (prev_precedence, prev_id) (precedence, id) =
         some b →
       processCompletions g i ((id, precedence) :: rest)
           (some (prev_id, prev_precedence)) r =
         processCompletions g i rest
           (if b then some (prev_id, prev_precedence) else some (id, precedence))
           (record_completion_flags i (if b then prev_id else id) r)) ∧
    (∀ (i winning_id : Nat) (r : TokenConflictStatus × TokenConflictStatus),
       (winning_id = i →
         record_completion_flags i winning_id r =
           ({ r.1 with matches_same_string := true, does_overlap := true }, r.2)) ∧
       (winning_id ≠ i →
         record_completion_flags i winning_id r =
           (r.1, { r.2 with matches_same_string := true, does_overlap := true }))) ∧
    (∀ (i j : Nat) (fcs : List CharacterSet) (winning_id : Nat)
       (chars : CharacterSet) (in_sep : Bool)
       (r rr : TokenConflictStatus × TokenConflictStatus),
       record_successor_flags i j fcs winning_id chars in_sep r = some rr →
       ((winning_id = i → rr.2 = r.2 ∧ rr.1.does_overlap = true) ∧
        (winning_id ≠ i → rr.1 = r.1 ∧ rr.2.does_overlap = true))) := by
  refine ⟨?_, ?_, ?_⟩
  · intro g i id prev_id precedence prev_precedence rest r b hne hb
    simp only [processCompletions, hne, if_false, hb]
    cases b <;> rfl
  · intro i winning_id r
    constructor
    · intro hw
      simp [record_completion_flags, hw]
    · intro hw
      simp [record_completion_flags, hw]
  · intro i j fcs winning_id chars in_sep r rr h
    unfold record_successor_flags at h
    split_ifs at h with hw
    · cases hj : fcs[j]? with
      | none => rw [hj] at h; exact absurd h (by simp)
      | some fc =>
        rw [hj] at h
        simp only [Option.some.injEq] at h
        subst h
        exact ⟨fun _ => ⟨rfl, rfl⟩, fun hni => absurd hw hni⟩
    · cases hi : fcs[i]? with
      | none => rw [hi] at h; exact absurd h (by simp)
      | some fc =>
        rw [hi] at h
        simp only [Option.some.injEq] at h
        subst h
        exact ⟨fun heq => absurd heq hw, fun _ => ⟨rfl, rfl⟩⟩

/-- C1 corrected witness: the concrete completion decision where i = 1 wins
puts the flags on the first (i-directed) component. -/
theorem conflict_flags_on_winner_slot_witness :
    processCompletions gTwo 1 [(0, 3)] (some (1, 5))
        (TokenConflictStatus.default, TokenConflictStatus.default) =
      some (some (1, 5),
        ({ TokenConflictStatus.default with
            matches_same_string := true, does_overlap := true },
         TokenConflictStatus.default)) := by
  have h := conflict_flags_on_winner_slot.1 gTwo 1 0 1 3 5 []
    (TokenConflictStatus.default, TokenConflictStatus.default) true
    (by decide) (by decide)
  simpa [processCompletions, record_completion_flags] using h

/-- C2 witness: the preference equivalence evaluated at concrete candidates
of the two-token grammar with implicit precedences 5 and 3. -/
theorem prefer_token_iff_spec_witness :
    TokenConflictMap.prefer_token gPrec (0, 0) (0, 1) = some true ↔
      prefer_token_spec gPrec (0, 0) (0, 1) :=
  prefer_token_iff_spec gPrec (0, 0) (0, 1) (by decide) (by decide)

/-- C3 witness: irreflexivity and exactly-one-direction evaluated at
concrete candidates. -/
theorem prefer_token_strict_order_witness :
    TokenConflictMap.prefer_token gPrec (0, 0) (0, 0) = some false ∧
    ((TokenConflictMap.prefer_token gPrec (0, 0) (0, 1) = some true ∧
        TokenConflictMap.prefer_token gPrec (0, 1) (0, 0) = some false) ∨
     (TokenConflictMap.prefer_token gPrec (0, 0) (0, 1) = some false ∧
        TokenConflictMap.prefer_token gPrec (0, 1) (0, 0) = some true)) :=
  ⟨(prefer_token_strict_order gPrec).1 (0, 0) (by decide),
   (prefer_token_strict_order gPrec).2 (0, 0) (0, 1) (by decide) (by decide)
     (by decide)⟩

/-- C10 witness: the aliasing evaluated on a concrete two-token map whose
stored (1, 0) entry is distinctive. -/
theorem out_of_range_query_aliasing_witness :
    TokenConflictMap.does_overlap mAlias 0 2 =
      TokenConflictMap.does_overlap mAlias 1 0 ∧
    TokenConflictMap.does_overlap mAlias 1 0 = some true :=
  ⟨(out_of_range_query_aliasing mAlias (by decide) (by decide)).2.2.1, by decide⟩

theorem record_completion_flags_snd_sep (i w : Nat)
    (r : TokenConflictStatus × TokenConflictStatus) :
    (record_completion_flags i w r).2.does_match_separators =
      r.2.does_match_separators := by
  unfold record_completion_flags
  split_ifs <;> rfl

theorem processCompletions_snd_sep (g : LexicalGrammar) (i : Nat) :
    ∀ (cs : List (Nat × Int)) (comp : Option (Nat × Int))
      (r : TokenConflictStatus × TokenConflictStatus)
      (out : Option (Nat × Int) × (TokenConflictStatus × TokenConflictStatus)),
    processCompletions g i cs comp r = some out →
    out.2.2.does_match_separators = r.2.does_match_separators := by
  intro cs
  induction cs with
  | nil =>
    intro comp r out h
    simp only [processCompletions, Option.some.injEq] at h
    subst h
    rfl
  | cons c rest ih =>
    intro comp r out h
    obtain ⟨id, precedence⟩ := c
    cases comp with
    | none => exact ih (some (id, precedence)) r out h
    | some prev =>
      obtain ⟨prev_id, prev_precedence⟩ := prev
      by_cases hne : id = prev_id
      · simp only [processCompletions, hne, if_true] at h
        exact ih (some (prev_id, prev_precedence)) r out h
      · simp only [processCompletions, hne, if_false] at h
        cases hp : TokenConflictMap.prefer_token g (prev_precedence, prev_id)
            (precedence, id) with
        | none => rw [hp] at h; exact absurd h (by simp)
        | some b =>
          rw [hp] at h
          cases b with
          | true =>
            have h2 := ih (some (prev_id, prev_precedence))
              (record_completion_flags i prev_id r) out h
            rw [h2, record_completion_flags_snd_sep]
          | false =>
            have h2 := ih (some (id, precedence))
              (record_completion_flags i id r) out h
            rw [h2, record_completion_flags_snd_sep]

theorem record_successor_flags_snd_sep (i j : Nat) (fcs : List CharacterSet)
    (w : Nat) (chars : CharacterSet) (in_sep : Bool)
    (r rr : TokenConflictStatus × TokenConflictStatus)
    (h : record_successor_flags i j fcs w chars in_sep r = some rr) :
    rr.2.does_match_separators = r.2.does_match_separators := by
  unfold record_successor_flags at h
  split_ifs at h
  · cases hj : fcs[j]? with
    | none => rw [hj] at h; exact absurd h (by simp)
    | some fc => rw [hj] at h; simp only [Option.some.injEq] at h; subst h; rfl
  · cases hi : fcs[i]? with
    | none => rw [hi] at h; exact absurd h (by simp)
    | some fc => rw [hi] at h; simp only [Option.some.injEq] at h; subst h; rfl

theorem successorGroupStep_snd_sep (g : LexicalGrammar) (i j : Nat)
    (fcs : List CharacterSet) (comp : Option (Nat × Int)) (chars : CharacterSet)
    (ap : Int) (ns : List Nat) (in_sep : Bool)
    (r : TokenConflictStatus × TokenConflictStatus) (b : Bool)
    (rr : TokenConflictStatus × TokenConflictStatus)
    (h : successorGroupStep g i j fcs comp chars ap ns in_sep r = some (b, rr)) :
    rr.2.does_match_separators = r.2.does_match_separators := by
  unfold successorGroupStep at h
  cases comp with
  | none => simp only [Option.some.injEq, Prod.mk.injEq] at h; rw [h.2]
  | some c =>
    obtain ⟨cid, cprec⟩ := c
    dsimp only at h
    rcases hs : scanSuccessorIds cid none (variable_ids_for_states ns g) with ⟨o, ob⟩
    rw [hs] at h
    cases o with
    | none =>
      cases ob <;> simp only [Option.some.injEq, Prod.mk.injEq] at h <;> rw [h.2]
    | some oid =>
      cases ob with
      | true => simp only [Option.some.injEq, Prod.mk.injEq] at h; rw [h.2]
      | false =>
        dsimp only at h
        split_ifs at h with hp
        · cases hrec : record_successor_flags i j fcs cid chars in_sep r with
          | none => rw [hrec] at h; exact absurd h (by simp)
          | some rr2 =>
            rw [hrec] at h
            simp only [Option.some.injEq, Prod.mk.injEq] at h
            rw [← h.2]
            exact record_successor_flags_snd_sep i j fcs cid chars in_sep r rr2 hrec
        · cases hrec : record_successor_flags i j fcs oid chars in_sep r with
          | none => rw [hrec] at h; exact absurd h (by simp)
          | some rr2 =>
            rw [hrec] at h
            simp only [Option.some.injEq, Prod.mk.injEq] at h
            rw [← h.2]
            exact record_successor_flags_snd_sep i j fcs oid chars in_sep r rr2 hrec

theorem processSuccessors_snd_sep (g : LexicalGrammar) (i j : Nat)
    (fcs : List CharacterSet) (comp : Option (Nat × Int)) :
    ∀ (groups : List (CharacterSet × Int × List Nat × Bool))
      (visited queue : List (List Nat))
      (r : TokenConflictStatus × TokenConflictStatus)
      (out : List (List Nat) × List (List Nat) ×
        (TokenConflictStatus × TokenConflictStatus)),
    processSuccessors g i j fcs comp groups visited queue r = some out →
    out.2.2.2.does_match_separators = r.2.does_match_separators := by
  intro groups
  induction groups with
  | nil =>
    intro visited queue r out h
    simp only [processSuccessors, Option.some.injEq] at h
    subst h
    rfl
  | cons grp rest ih =>
    intro visited queue r out h
    obtain ⟨chars, ap, ns, in_sep⟩ := grp
    simp only [processSuccessors] at h
    cases hstep : successorGroupStep g i j fcs comp chars ap ns in_sep r with
    | none => rw [hstep] at h; exact absurd h (by simp)
    | some br =>
      obtain ⟨can_advance, r2⟩ := br
      rw [hstep] at h
      dsimp only at h
      have hsep := successorGroupStep_snd_sep g i j fcs comp chars ap ns in_sep r
        can_advance r2 hstep
      by_cases hadv : (can_advance && !(visited.contains ns)) = true
      · rw [if_pos hadv] at h
        rw [ih (ns :: visited) (ns :: queue) r2 out h, hsep]
      · rw [if_neg hadv] at h
        rw [ih visited queue r2 out h, hsep]

theorem conflictLoop_snd_sep (cursor : NfaCursor) (g : LexicalGrammar)
    (fcs : List CharacterSet) (i j : Nat) :
    ∀ (fuel : Nat) (visited queue : List (List Nat))
      (r : TokenConflictStatus × TokenConflictStatus) (trace : List (List Nat))
      (res : TokenConflictStatus × TokenConflictStatus) (tr : List (List Nat)),
    conflictLoop cursor g fcs i j fuel visited queue r trace = .ok res tr →
    res.2.does_match_separators = r.2.does_match_separators := by
  intro fuel
  induction fuel with
  | zero =>
    intro visited queue r trace res tr h
    exact absurd h (by simp [conflictLoop])
  | succ fuel ih =>
    intro visited queue r trace res tr h
    cases queue with
    | nil =>
      simp only [conflictLoop, ConflictOutcome.ok.injEq] at h
      rw [h.1]
    | cons state_set rest =>
      simp only [conflictLoop] at h
      split_ifs at h with hprune
      · cases hc : processCompletions g i (cursor.completions state_set) none r with
        | none => rw [hc] at h; exact absurd h (by simp)
        | some cout =>
          obtain ⟨completion, r2⟩ := cout
          rw [hc] at h
          dsimp only at h
          cases hsuc : processSuccessors g i j fcs completion
              (cursor.grouped_successors state_set) visited rest r2 with
          | none => rw [hsuc] at h; exact absurd h (by simp)
          | some sout =>
            obtain ⟨visited2, queue2, r3⟩ := sout
            rw [hsuc] at h
            dsimp only at h
            have h1 := ih visited2 queue2 r3 (trace ++ [state_set]) res tr h
            have h2 := processSuccessors_snd_sep g i j fcs completion
              (cursor.grouped_successors state_set) visited rest r2
              (visited2, queue2, r3) hsuc
            have h3 := processCompletions_snd_sep g i
              (cursor.completions state_set) none r (completion, r2) hc
            rw [h1, h2, h3]
      · exact ih visited rest r (trace ++ [state_set]) res tr h

/-- C5: in every successful run of the pairwise conflict computation, the
status returned for the second direction of the pair has
does_match_separators false: the flag is only ever recorded on the
first (i-directed) slot. -/
theorem second_slot_never_matches_separators (fuel : Nat) (cursor : NfaCursor)
    (g : LexicalGrammar) (fcs : List CharacterSet) (i j : Nat)
    (res : TokenConflictStatus × TokenConflictStatus) (tr : List (List Nat))
    (h : compute_conflict_status fuel cursor g fcs i j = .ok res tr) :
    res.2.does_match_separators = false := by
  unfold compute_conflict_status at h
  cases hvi : g.variables[i]? with
  | none => rw [hvi] at h; exact absurd h (by simp)
  | some vi =>
    cases hvj : g.variables[j]? with
    | none => rw [hvi, hvj] at h; exact absurd h (by simp)
    | some vj =>
      rw [hvi, hvj] at h
      exact conflictLoop_snd_sep cursor g fcs i j fuel []
        [[vi.start_state, vj.start_state]]
        (TokenConflictStatus.default, TokenConflictStatus.default) [] res tr h

/-- C5 witness: evaluated on a concrete run in which the first slot does
receive completion flags. -/
theorem second_slot_never_matches_separators_witness :
    (⟨false, false, false, false⟩ : TokenConflictStatus).does_match_separators =
      false :=
  second_slot_never_matches_separators 5 cBothComplete gTwo [] 1 0
    (⟨true, false, false, true⟩, ⟨false, false, false, false⟩) [[1, 0]] (by decide)

theorem scanSuccessorIds_no_completed :
    ∀ (l : List Nat) (cid : Nat) (acc : Option Nat), cid ∉ l → l ≠ [] →
    scanSuccessorIds cid acc l = (some (l.getLastD 0), false) := by
  intro l
  induction l with
  | nil => intro cid acc _ hne; exact absurd rfl hne
  | cons x xs ih =>
    intro cid acc hnm _
    have hx : ¬ x = cid := fun hc => hnm (hc ▸ List.mem_cons_self _ _)
    have hnm2 : cid ∉ xs := fun hc => hnm (List.mem_cons_of_mem _ hc)
    simp only [scanSuccessorIds, hx, if_false]
    cases xs with
    | nil => simp [scanSuccessorIds, List.getLastD_cons]
    | cons y ys =>
      rw [ih cid (some x) hnm2 (by simp)]
      simp [List.getLastD_cons]

/-- C6: in the grouped-successor step, when a completion exists and the
successor state set holds a different token but not the completed
token, a strictly lower advance precedence makes the completed token
the local winner and suppresses the advance (can_advance is false, and
the group leaves the visited set and worklist untouched, so the next
state set is not enqueued); otherwise the other, extending token is the
local winner and the advance may proceed (can_advance is true). -/
theorem successor_dispute_resolution (g : LexicalGrammar) (i j : Nat)
    (fcs : List CharacterSet) (cid : Nat) (cprec : Int) (chars : CharacterSet)
    (ap : Int) (ns : List Nat) (in_sep : Bool)
    (r : TokenConflictStatus × TokenConflictStatus)
    (hne : variable_ids_for_states ns g ≠ [])
    (hnm : cid ∉ variable_ids_for_states ns g) :
    (ap < cprec →
      (successorGroupStep g i j fcs (some (cid, cprec)) chars ap ns in_sep r =
        (record_successor_flags i j fcs cid chars in_sep r).map
          (fun rr => (false, rr))) ∧
      (∀ (rest : List (CharacterSet × Int × List Nat × Bool))
         (visited queue : List (List Nat))
         (rr : TokenConflictStatus × TokenConflictStatus),
         record_successor_flags i j fcs cid chars in_sep r = some rr →
         processSuccessors g i j fcs (some (cid, cprec))
             ((chars, ap, ns, in_sep) :: rest) visited queue r =
           processSuccessors g i j fcs (some (cid, cprec)) rest
             visited queue rr)) ∧
    (¬ ap < cprec →
      successorGroupStep g i j fcs (some (cid, cprec)) chars ap ns in_sep r =
        (record_successor_flags i j fcs
            ((variable_ids_for_states ns g).getLastD 0) chars in_sep r).map
          (fun rr => (true, rr))) := by
  have hscan := scanSuccessorIds_no_completed (variable_ids_for_states ns g)
    cid none hnm hne
  constructor
  · intro hp
    constructor
    · unfold successorGroupStep
      dsimp only
      rw [hscan]
      dsimp only
      rw [if_pos hp]
      cases hrec : record_successor_flags i j fcs cid chars in_sep r <;> rfl
    · intro rest visited queue rr hrec
      have hstep : successorGroupStep g i j fcs (some (cid, cprec)) chars ap ns
          in_sep r = some (false, rr) := by
        unfold successorGroupStep
        dsimp only
        rw [hscan]
        dsimp only
        rw [if_pos hp, hrec]
      simp only [processSuccessors, hstep]
      simp
  · intro hp
    unfold successorGroupStep
    dsimp only
    rw [hscan]
    dsimp only
    rw [if_neg hp]
    cases hrec : record_successor_flags i j fcs
        ((variable_ids_for_states ns g).getLastD 0) chars in_sep r <;> rfl

/-- C6 witness: the suppression branch evaluated on a concrete dispute with
advance precedence 3 against completed precedence 5. -/
theorem successor_dispute_resolution_witness :
    successorGroupStep gTwo 1 0 [CharacterSet.empty, CharacterSet.empty]
        (some (0, 5)) CharacterSet.empty 3 [1] false
        (TokenConflictStatus.default, TokenConflictStatus.default) =
      (record_successor_flags 1 0 [CharacterSet.empty, CharacterSet.empty] 0
          CharacterSet.empty false
          (TokenConflictStatus.default, TokenConflictStatus.default)).map
        (fun rr => (false, rr)) :=
  ((successor_dispute_resolution gTwo 1 0 [CharacterSet.empty, CharacterSet.empty]
      0 5 CharacterSet.empty 3 [1] false
      (TokenConflictStatus.default, TokenConflictStatus.default)
      (by decide) (by decide)).1 (by decide)).1

theorem processSuccessors_count (g : LexicalGrammar) (i j : Nat)
    (fcs : List CharacterSet) (comp : Option (Nat × Int)) :
    ∀ (groups : List (CharacterSet × Int × List Nat × Bool))
      (visited queue : List (List Nat))
      (r : TokenConflictStatus × TokenConflictStatus)
      (out : List (List Nat) × List (List Nat) ×
        (TokenConflictStatus × TokenConflictStatus)),
    processSuccessors g i j fcs comp groups visited queue r = some out →
    (∀ v : List Nat,
      out.2.1.count v + (if v ∈ visited then 1 else 0) ≤
        queue.count v + (if v ∈ out.1 then 1 else 0)) ∧
    (∀ v : List Nat, v ∈ visited → v ∈ out.1) := by
  intro groups
  induction groups with
  | nil =>
    intro visited queue r out h
    simp only [processSuccessors, Option.some.injEq] at h
    subst h
    exact ⟨fun v => le_refl _, fun v hv => hv⟩
  | cons grp rest ih =>
    intro visited queue r out h
    obtain ⟨chars, ap, ns, in_sep⟩ := grp
    simp only [processSuccessors] at h
    cases hstep : successorGroupStep g i j fcs comp chars ap ns in_sep r with
    | none => rw [hstep] at h; exact absurd h (by simp)
    | some br =>
      obtain ⟨can_advance, r2⟩ := br
      rw [hstep] at h
      dsimp only at h
      by_cases hadv : (can_advance && !(visited.contains ns)) = true
      · rw [if_pos hadv] at h
        have hns : ns ∉ visited := by
          have h2 := (Bool.and_eq_true _ _).mp hadv
          simpa using h2.2
        obtain ⟨ihc, ihm⟩ := ih (ns :: visited) (ns :: queue) r2 out h
        constructor
        · intro v
          have hc := ihc v
          have hm : v ∈ visited → v ∈ out.1 := fun hv =>
            ihm v (List.mem_cons_of_mem _ hv)
          by_cases hvns : v = ns
          · subst hvns
            have e1 : (v :: queue).count v = queue.count v + 1 := by
              simp [List.count_cons]
            have e2 : v ∈ v :: visited := List.mem_cons_self _ _
            rw [e1] at hc
            simp only [e2, if_pos] at hc
            simp only [hns, if_neg, not_false_iff]
            by_cases ho : v ∈ out.1 <;> simp only [ho, if_pos, if_neg,
              not_false_iff] at hc ⊢ <;> omega
          · have hnsv : ¬ ns = v := fun hh => hvns hh.symm
            have e1 : (ns :: queue).count v = queue.count v := by
              simp [List.count_cons, hnsv]
            have e2 : (v ∈ ns :: visited) ↔ v ∈ visited := by
              simp [List.mem_cons, hvns]
            rw [e1] at hc
            rw [show (if v ∈ ns :: visited then 1 else 0) =
              (if v ∈ visited then 1 else 0) by simp [e2]] at hc
            exact hc
        · intro v hv
          exact ihm v (List.mem_cons_of_mem _ hv)
      · rw [if_neg hadv] at h
        exact ih visited queue r2 out h

theorem conflictLoop_count (cursor : NfaCursor) (g : LexicalGrammar)
    (fcs : List CharacterSet) (i j : Nat) (B : List Nat → Nat) :
    ∀ (fuel : Nat) (visited queue : List (List Nat))
      (r : TokenConflictStatus × TokenConflictStatus) (trace : List (List Nat))
      (res : TokenConflictStatus × TokenConflictStatus) (tr : List (List Nat)),
    conflictLoop cursor g fcs i j fuel visited queue r trace = .ok res tr →
    (∀ v, queue.count v + trace.count v ≤ B v + (if v ∈ visited then 1 else 0)) →
    ∀ v, tr.count v ≤ B v + 1 := by
  intro fuel
  induction fuel with
  | zero =>
    intro visited queue r trace res tr h _ _
    exact absurd h (by simp [conflictLoop])
  | succ fuel ih =>
    intro visited queue r trace res tr h hJ v
    cases queue with
    | nil =>
      simp only [conflictLoop, ConflictOutcome.ok.injEq] at h
      have h2 := hJ v
      rw [← h.2]
      by_cases hv : v ∈ visited <;> simp only [hv, if_pos, if_neg,
        not_false_iff, List.count_nil] at h2 <;> omega
    | cons u rest =>
      simp only [conflictLoop] at h
      split_ifs at h with hprune
      · cases hc : processCompletions g i (cursor.completions u) none r with
        | none => rw [hc] at h; exact absurd h (by simp)
        | some cout =>
          obtain ⟨completion, r2⟩ := cout
          rw [hc] at h
          dsimp only at h
          cases hsuc : processSuccessors g i j fcs completion
              (cursor.grouped_successors u) visited rest r2 with
          | none => rw [hsuc] at h; exact absurd h (by simp)
          | some sout =>
            obtain ⟨visited2, queue2, r3⟩ := sout
            rw [hsuc] at h
            dsimp only at h
            refine ih visited2 queue2 r3 (trace ++ [u]) res tr h ?_ v
            intro w
            obtain ⟨hcnt, hmono⟩ := processSuccessors_count g i j fcs completion
              (cursor.grouped_successors u) visited rest r2
              (visited2, queue2, r3) hsuc
            have h1 := hcnt w
            have h2 := hJ w
            have e1 : (u :: rest).count w = rest.count w +
                (if u = w then 1 else 0) := by
              simp [List.count_cons]
            have e2 : (trace ++ [u]).count w = trace.count w +
                (if u = w then 1 else 0) := by
              simp [List.count_append, List.count_cons]
            rw [e1] at h2
            rw [e2]
            have hw12 : w ∈ visited → w ∈ visited2 := hmono w
            by_cases hu : u = w <;> by_cases hw1 : w ∈ visited <;>
              by_cases hw2 : w ∈ visited2 <;>
              simp only [hu, hw1, hw2, if_pos, if_neg, not_false_iff,
                if_true, if_false] at h1 h2 ⊢ <;>
              first
                | omega
                | exact absurd (hw12 hw1) hw2
      · refine ih visited rest r (trace ++ [u]) res tr h ?_ v
        intro w
        have h2 := hJ w
        have e1 : (u :: rest).count w = rest.count w +
            (if u = w then 1 else 0) := by
          simp [List.count_cons]
        have e2 : (trace ++ [u]).count w = trace.count w +
            (if u = w then 1 else 0) := by
          simp [List.count_append, List.count_cons]
        rw [e1] at h2
        rw [e2]
        by_cases hu : u = w <;> by_cases hw1 : w ∈ visited <;>
          simp only [hu, hw1, if_pos, if_neg, not_false_iff, if_true,
            if_false] at h2 ⊢ <;> omega

theorem length_filter_mono {α : Type} (p q : α → Bool)
    (h : ∀ a, q a = true → p a = true) :
    ∀ l : List α, (l.filter q).length ≤ (l.filter p).length := by
  intro l
  induction l with
  | nil => simp
  | cons x xs ih =>
    cases hq : q x with
    | true =>
      have hp := h x hq
      simp [List.filter_cons, hq, hp]
      omega
    | false =>
      cases hp : p x <;> simp [List.filter_cons, hq, hp] <;> omega

theorem filter_visited_decrease (ns : List Nat) (visited : List (List Nat)) :
    ∀ U : List (List Nat), ns ∈ U → ns ∉ visited →
    (U.filter (fun u => !((ns :: visited).contains u))).length + 1 ≤
      (U.filter (fun u => !(visited.contains u))).length := by
  intro U
  induction U with
  | nil => intro h; exact absurd h (List.not_mem_nil _)
  | cons x xs ih =>
    intro hU hnv
    have hmono : ∀ a : List Nat, (!((ns :: visited).contains a)) = true →
        (!(visited.contains a)) = true := by
      intro a ha
      by_cases hm : a ∈ visited
      · exfalso
        simp at ha
        exact ha.2 hm
      · simp [hm]
    by_cases hx : x = ns
    · subst hx
      have h1 : (!((x :: visited).contains x)) = false := by simp
      have h2 : (!(visited.contains x)) = true := by simp [hnv]
      simp only [List.filter_cons, h1, h2, if_false, if_true, Bool.false_eq_true,
        List.length_cons]
      have h3 := length_filter_mono (fun u => !(visited.contains u))
        (fun u => !((x :: visited).contains u)) hmono xs
      omega
    · rcases List.mem_cons.mp hU with heq | hU2
      · exact absurd heq.symm hx
      · have hxn : ¬ x = ns := hx
        have e : ((ns :: visited).contains x) = (visited.contains x) := by
          by_cases hx2 : x ∈ visited <;> simp [List.mem_cons, hx2, hxn]
        simp only [List.filter_cons, e]
        cases hv : (!(visited.contains x)) with
        | true =>
          simp only [if_true, List.length_cons]
          have h3 := ih hU2 hnv
          omega
        | false =>
          simp only [Bool.false_eq_true, if_false]
          exact ih hU2 hnv

theorem processSuccessors_measure (g : LexicalGrammar) (i j : Nat)
    (fcs : List CharacterSet) (comp : Option (Nat × Int))
    (U : List (List Nat)) :
    ∀ (groups : List (CharacterSet × Int × List Nat × Bool))
      (visited queue : List (List Nat))
      (r : TokenConflictStatus × TokenConflictStatus)
      (out : List (List Nat) × List (List Nat) ×
        (TokenConflictStatus × TokenConflictStatus)),
    (∀ grp ∈ groups, grp.2.2.1 ∈ U) →
    processSuccessors g i j fcs comp groups visited queue r = some out →
    out.2.1.length + (U.filter (fun u => !(out.1.contains u))).length ≤
      queue.length + (U.filter (fun u => !(visited.contains u))).length := by
  intro groups
  induction groups with
  | nil =>
    intro visited queue r out _ h
    simp only [processSuccessors, Option.some.injEq] at h
    subst h
    exact le_refl _
  | cons grp rest ih =>
    intro visited queue r out hcl h
    obtain ⟨chars, ap, ns, in_sep⟩ := grp
    have hclr : ∀ grp ∈ rest, grp.2.2.1 ∈ U := fun grp hg =>
      hcl grp (List.mem_cons_of_mem _ hg)
    simp only [processSuccessors] at h
    cases hstep : successorGroupStep g i j fcs comp chars ap ns in_sep r with
    | none => rw [hstep] at h; exact absurd h (by simp)
    | some br =>
      obtain ⟨can_advance, r2⟩ := br
      rw [hstep] at h
      dsimp only at h
      by_cases hadv : (can_advance && !(visited.contains ns)) = true
      · rw [if_pos hadv] at h
        have hns : ns ∉ visited := by
          have h2 := (Bool.and_eq_true _ _).mp hadv
          simpa using h2.2
        have hnsU : ns ∈ U := hcl (chars, ap, ns, in_sep) (List.mem_cons_self _ _)
        have h3 := ih (ns :: visited) (ns :: queue) r2 out hclr h
        have h4 := filter_visited_decrease ns visited U hnsU hns
        simp only [List.length_cons] at h3
        omega
      · rw [if_neg hadv] at h
        exact ih visited queue r2 out hclr h

theorem conflictLoop_no_fuel_exhaustion (cursor : NfaCursor) (g : LexicalGrammar)
    (fcs : List CharacterSet) (i j : Nat) (U : List (List Nat))
    (hU : ∀ (s : List Nat) grp, grp ∈ cursor.grouped_successors s →
      grp.2.2.1 ∈ U) :
    ∀ (fuel : Nat) (visited queue : List (List Nat))
      (r : TokenConflictStatus × TokenConflictStatus) (trace : List (List Nat)),
    queue.length + (U.filter (fun u => !(visited.contains u))).length < fuel →
    conflictLoop cursor g fcs i j fuel visited queue r trace ≠ .outOfFuel := by
  intro fuel
  induction fuel with
  | zero => intro visited queue r trace hlt; omega
  | succ fuel ih =>
    intro visited queue r trace hlt
    cases queue with
    | nil => simp [conflictLoop]
    | cons u rest =>
      simp only [conflictLoop]
      split_ifs with hprune
      · cases hc : processCompletions g i (cursor.completions u) none r with
        | none => simp
        | some cout =>
          obtain ⟨completion, r2⟩ := cout
          dsimp only
          cases hsuc : processSuccessors g i j fcs completion
              (cursor.grouped_successors u) visited rest r2 with
          | none => simp
          | some sout =>
            obtain ⟨visited2, queue2, r3⟩ := sout
            dsimp only
            refine ih visited2 queue2 r3 (trace ++ [u]) ?_
            have h3 := processSuccessors_measure g i j fcs completion U
              (cursor.grouped_successors u) visited rest r2
              (visited2, queue2, r3) (fun grp hg => hU u grp hg) hsuc
            dsimp only at h3
            simp only [List.length_cons] at hlt
            omega
      · refine ih visited rest r (trace ++ [u]) ?_
        simp only [List.length_cons] at hlt
        omega

/-- C7 corrected: visited-set membership is full equality on the state-id
sequences, and every state set other than the seeded start set is
popped from the worklist at most once; the seeded start set itself,
which is never inserted into the visited set, may be popped up to
twice.  When the cursor's successor state sets all come from a finite
universe U, fuel U.length + 2 suffices for the search to finish without
exhausting its fuel. -/
theorem statesets_processed_bound :
    (∀ (cursor : NfaCursor) (g : LexicalGrammar) (fcs : List CharacterSet)
       (i j : Nat) (fuel : Nat) (vi vj : Variable)
       (res : TokenConflictStatus × TokenConflictStatus) (tr : List (List Nat)),
       g.variables[i]? = some vi → g.variables[j]? = some vj →
       compute_conflict_status fuel cursor g fcs i j = .ok res tr →
       (tr.count [vi.start_state, vj.start_state] ≤ 2 ∧
        ∀ s : List Nat, s ≠ [vi.start_state, vj.start_state] →
          tr.count s ≤ 1)) ∧
    (∀ (cursor : NfaCursor) (g : LexicalGrammar) (fcs : List CharacterSet)
       (i j : Nat) (fuel : Nat) (U : List (List Nat)),
       (∀ (s : List Nat) grp, grp ∈ cursor.grouped_successors s →
         grp.2.2.1 ∈ U) →
       U.length + 2 ≤ fuel →
       compute_conflict_status fuel cursor g fcs i j ≠ .outOfFuel) := by
  constructor
  · intro cursor g fcs i j fuel vi vj res tr hvi hvj h
    unfold compute_conflict_status at h
    rw [hvi, hvj] at h
    have hB := conflictLoop_count cursor g fcs i j
      (fun v => if v = [vi.start_state, vj.start_state] then 1 else 0)
      fuel [] [[vi.start_state, vj.start_state]]
      (TokenConflictStatus.default, TokenConflictStatus.default) [] res tr h ?J
    constructor
    · have h2 := hB [vi.start_state, vj.start_state]
      simp only [if_pos] at h2
      omega
    · intro s hs
      have h2 := hB s
      simp only [hs, if_neg, not_false_iff] at h2
      omega
    case J =>
      intro v
      by_cases hv : v = [vi.start_state, vj.start_state]
      · subst hv
        simp [List.count_cons]
      · have hne : ¬ [vi.start_state, vj.start_state] = v := fun hh => hv hh.symm
        have e1 : ([[vi.start_state, vj.start_state]] : List (List Nat)).count
            v = 0 := by
          simp [List.count_cons, hne]
        simp [e1, hv]
  · intro cursor g fcs i j fuel U hU hfuel
    unfold compute_conflict_status
    cases hvi : g.variables[i]? with
    | none => simp
    | some vi =>
      cases hvj : g.variables[j]? with
      | none => simp
      | some vj =>
        refine conflictLoop_no_fuel_exhaustion cursor g fcs i j U hU fuel []
          [[vi.start_state, vj.start_state]]
          (TokenConflictStatus.default, TokenConflictStatus.default) [] ?_
        have h1 := U.length_filter_le (fun u => !(([] : List (List Nat)).contains u))
        simp only [List.length_cons, List.length_nil]
        omega

/-- C7 corrected witness: the pop-count bound evaluated on a concrete run,
and fuel sufficiency evaluated on the empty-successor cursor. -/
theorem statesets_processed_bound_witness :
    ([[1, 0]] : List (List Nat)).count [1, 0] ≤ 2 ∧
    compute_conflict_status 3 cEmpty gTwo [] 1 0 ≠ ConflictOutcome.outOfFuel :=
  ⟨(statesets_processed_bound.1 cBothComplete gTwo [] 1 0 5 ⟨0, 1⟩ ⟨0, 0⟩
      (⟨true, false, false, true⟩, ⟨false, false, false, false⟩) [[1, 0]]
      rfl rfl (by decide)).1,
   statesets_processed_bound.2 cEmpty gTwo [] 1 0 3 []
     (fun s grp hg => absurd hg (List.not_mem_nil _)) (by decide)⟩

theorem pairsBelow_mem : ∀ (n : Nat) (p : Nat × Nat),
    p ∈ pairsBelow n ↔ p.2 < p.1 ∧ p.1 < n := by
  intro n
  induction n with
  | zero => intro p; simp [pairsBelow]
  | succ n ih =>
    intro p
    simp only [pairsBelow, List.mem_append, List.mem_map, List.mem_range, ih]
    constructor
    · rintro (⟨h1, h2⟩ | ⟨j, hj, rfl⟩)
      · exact ⟨h1, Nat.lt_succ_of_lt h2⟩
      · exact ⟨hj, Nat.lt_succ_self _⟩
    · rintro ⟨h1, h2⟩
      rcases Nat.lt_succ_iff_lt_or_eq.mp h2 with h3 | h3
      · exact Or.inl ⟨h1, h3⟩
      · exact Or.inr ⟨p.2, h3 ▸ h1, Prod.ext h3.symm rfl⟩

theorem pairsBelow_nodup : ∀ n : Nat, (pairsBelow n).Nodup := by
  intro n
  induction n with
  | zero => simp [pairsBelow]
  | succ n ih =>
    simp only [pairsBelow]
    refine List.Nodup.append ih ?_ ?_
    · refine List.Nodup.map ?_ (List.nodup_range n)
      intro a b hab
      exact ((Prod.mk.injEq _ _ _ _).mp hab).2
    · intro p hp1 hp2
      have h1 := ((pairsBelow_mem n p).mp hp1).2
      obtain ⟨j, _, hj2⟩ := List.mem_map.mp hp2
      rw [← hj2] at h1
      exact absurd h1 (Nat.lt_irrefl n)

theorem matrix_index_lt (n i j : Nat) (hi : i < n) (hj : j < n) :
    matrix_index n i j < n * n := by
  unfold matrix_index
  calc n * i + j < n * i + n := by omega
  _ = n * (i + 1) := by ring
  _ ≤ n * n := Nat.mul_le_mul (Nat.le_refl n) hi

theorem matrix_index_inj (n i j a b : Nat) (hj : j < n) (hb : b < n)
    (h : matrix_index n i j = matrix_index n a b) : i = a ∧ j = b := by
  unfold matrix_index at h
  have h0 : 0 < n := by omega
  have hi2 : (n * i + j) / n = i := by
    rw [Nat.mul_add_div h0, Nat.div_eq_of_lt hj]
    omega
  have ha2 : (n * a + b) / n = a := by
    rw [Nat.mul_add_div h0, Nat.div_eq_of_lt hb]
    omega
  have hia : i = a := by rw [← hi2, h, ha2]
  subst hia
  exact ⟨rfl, Nat.add_left_cancel h⟩

theorem buildStatusMatrix_append (fuel : Nat) (cursor : NfaCursor)
    (g : LexicalGrammar) (fcs : List CharacterSet) (n : Nat) :
    ∀ (l1 l2 : List (Nat × Nat)) (m : List TokenConflictStatus),
    buildStatusMatrix fuel cursor g fcs n (l1 ++ l2) m =
      (buildStatusMatrix fuel cursor g fcs n l1 m).bind
        (fun m2 => buildStatusMatrix fuel cursor g fcs n l2 m2) := by
  intro l1
  induction l1 with
  | nil => intro l2 m; rfl
  | cons p rest ih =>
    intro l2 m
    obtain ⟨i, j⟩ := p
    simp only [List.cons_append, buildStatusMatrix]
    cases hc : compute_conflict_status fuel cursor g fcs i j with
    | ok res tr => exact ih l2 _
    | panicked => rfl
    | outOfFuel => rfl

theorem buildStatusMatrix_length (fuel : Nat) (cursor : NfaCursor)
    (g : LexicalGrammar) (fcs : List CharacterSet) (n : Nat) :
    ∀ (pairs : List (Nat × Nat)) (m m2 : List TokenConflictStatus),
    buildStatusMatrix fuel cursor g fcs n pairs m = some m2 →
    m2.length = m.length := by
  intro pairs
  induction pairs with
  | nil =>
    intro m m2 h
    simp only [buildStatusMatrix, Option.some.injEq] at h
    subst h
    rfl
  | cons p rest ih =>
    intro m m2 h
    obtain ⟨i, j⟩ := p
    simp only [buildStatusMatrix] at h
    cases hc : compute_conflict_status fuel cursor g fcs i j with
    | ok res tr =>
      rw [hc] at h
      have h2 := ih _ _ h
      simpa [List.length_set] using h2
    | panicked => rw [hc] at h; exact absurd h (by simp)
    | outOfFuel => rw [hc] at h; exact absurd h (by simp)

theorem buildStatusMatrix_frame (fuel : Nat) (cursor : NfaCursor)
    (g : LexicalGrammar) (fcs : List CharacterSet) (n : Nat) :
    ∀ (pairs : List (Nat × Nat)) (m m2 : List TokenConflictStatus) (k : Nat),
    buildStatusMatrix fuel cursor g fcs n pairs m = some m2 →
    (∀ p ∈ pairs, matrix_index n p.1 p.2 ≠ k ∧ matrix_index n p.2 p.1 ≠ k) →
    m2[k]? = m[k]? := by
  intro pairs
  induction pairs with
  | nil =>
    intro m m2 k h _
    simp only [buildStatusMatrix, Option.some.injEq] at h
    subst h
    rfl
  | cons p rest ih =>
    intro m m2 k h hk
    obtain ⟨i, j⟩ := p
    simp only [buildStatusMatrix] at h
    cases hc : compute_conflict_status fuel cursor g fcs i j with
    | ok res tr =>
      rw [hc] at h
      have hp := hk (i, j) (List.mem_cons_self _ _)
      have hrest : ∀ p ∈ rest, matrix_index n p.1 p.2 ≠ k ∧
          matrix_index n p.2 p.1 ≠ k := fun p hp2 =>
        hk p (List.mem_cons_of_mem _ hp2)
      rw [ih _ _ k h hrest]
      rw [List.getElem?_set_ne hp.2, List.getElem?_set_ne hp.1]
    | panicked => rw [hc] at h; exact absurd h (by simp)
    | outOfFuel => rw [hc] at h; exact absurd h (by simp)

/-- C8: the constructor fills the matrix by iterating exactly the pairs
(i, j) with j < i < n, each exactly once (the pair list is Nodup and
contains precisely those pairs, and never a diagonal pair); for each
such pair the single pairwise computation's two statuses land at the
row-major positions (i, j) and (j, i); and every diagonal entry still
holds the all-false default status after construction. -/
theorem constructor_matrix_layout (fuel : Nat) (cursor : NfaCursor)
    (g : LexicalGrammar) (fts : List LookaheadSet) (m : TokenConflictMap)
    (h : TokenConflictMap.new fuel cursor g fts = some m) :
    m.n = g.variables.length ∧
    (∀ p : Nat × Nat, p ∈ pairsBelow g.variables.length ↔
      p.2 < p.1 ∧ p.1 < g.variables.length) ∧
    (pairsBelow g.variables.length).Nodup ∧
    (∀ i j : Nat, j < i → i < g.variables.length →
      ∃ (fcs : List CharacterSet)
        (res : TokenConflictStatus × TokenConflictStatus) (tr : List (List Nat)),
        get_following_chars (get_starting_chars cursor g) fts = some fcs ∧
        compute_conflict_status fuel cursor g fcs i j = .ok res tr ∧
        m.status_matrix[matrix_index g.variables.length i j]? = some res.1 ∧
        m.status_matrix[matrix_index g.variables.length j i]? = some res.2) ∧
    (∀ i : Nat, i < g.variables.length →
      m.status_matrix[matrix_index g.variables.length i i]? =
        some TokenConflictStatus.default) := by
  simp only [TokenConflictMap.new] at h
  cases hfc : get_following_chars (get_starting_chars cursor g) fts with
  | none => rw [hfc] at h; exact absurd h (by simp)
  | some fcs =>
    rw [hfc] at h
    dsimp only at h
    cases hbm : buildStatusMatrix fuel cursor g fcs g.variables.length
        (pairsBelow g.variables.length)
        (List.replicate (g.variables.length * g.variables.length)
          TokenConflictStatus.default) with
    | none => rw [hbm] at h; exact absurd h (by simp)
    | some sm =>
      rw [hbm] at h
      dsimp only at h
      have hm := Option.some.inj h
      subst hm
      have hsmlen : sm.length = g.variables.length * g.variables.length := by
        have h2 := buildStatusMatrix_length fuel cursor g fcs g.variables.length
          (pairsBelow g.variables.length) _ sm hbm
        simpa using h2
      refine ⟨rfl, pairsBelow_mem _, pairsBelow_nodup _, ?_, ?_⟩
      · intro i j hji hi
        have hjn : j < g.variables.length := Nat.lt_trans hji hi
        have hpij : (i, j) ∈ pairsBelow g.variables.length :=
          (pairsBelow_mem _ (i, j)).mpr ⟨hji, hi⟩
        obtain ⟨l1, l2, hsplit⟩ := List.append_of_mem hpij
        have hbm2 := hbm
        rw [hsplit, buildStatusMatrix_append] at hbm2
        cases hb1 : buildStatusMatrix fuel cursor g fcs g.variables.length l1
            (List.replicate (g.variables.length * g.variables.length)
              TokenConflictStatus.default) with
        | none => rw [hb1] at hbm2; exact absurd hbm2 (by simp)
        | some m1 =>
          rw [hb1] at hbm2
          simp only [Option.bind_some, buildStatusMatrix] at hbm2
          cases hcc : compute_conflict_status fuel cursor g fcs i j with
          | panicked => rw [hcc] at hbm2; exact absurd hbm2 (by simp)
          | outOfFuel => rw [hcc] at hbm2; exact absurd hbm2 (by simp)
          | ok res tr =>
            rw [hcc] at hbm2
            have hm1len : m1.length =
                g.variables.length * g.variables.length := by
              have h2 := buildStatusMatrix_length fuel cursor g fcs
                g.variables.length l1 _ m1 hb1
              simpa using h2
            have hij_lt : matrix_index g.variables.length i j <
                g.variables.length * g.variables.length :=
              matrix_index_lt _ i j hi hjn
            have hji_lt : matrix_index g.variables.length j i <
                g.variables.length * g.variables.length :=
              matrix_index_lt _ j i hjn hi
            have hne_idx : matrix_index g.variables.length j i ≠
                matrix_index g.variables.length i j := by
              intro he
              have h2 := matrix_index_inj g.variables.length j i i j hi hjn he
              omega
            have hnotin : (i, j) ∉ l2 := by
              have hn := pairsBelow_nodup g.variables.length
              rw [hsplit] at hn
              have hn2 : ((i, j) :: l2).Nodup :=
                hn.sublist (List.sublist_append_right l1 ((i, j) :: l2))
              exact (List.nodup_cons.mp hn2).1
            have hl2sub : ∀ p ∈ l2, p.2 < p.1 ∧ p.1 < g.variables.length := by
              intro p hp
              refine (pairsBelow_mem _ p).mp ?_
              rw [hsplit]
              exact List.mem_append.mpr (Or.inr (List.mem_cons_of_mem _ hp))
            have hframe_ij : ∀ p ∈ l2,
                matrix_index g.variables.length p.1 p.2 ≠
                  matrix_index g.variables.length i j ∧
                matrix_index g.variables.length p.2 p.1 ≠
                  matrix_index g.variables.length i j := by
              intro p hp
              obtain ⟨hp21, hp1n⟩ := hl2sub p hp
              have hp2n : p.2 < g.variables.length := Nat.lt_trans hp21 hp1n
              constructor
              · intro he
                have h2 := matrix_index_inj g.variables.length p.1 p.2 i j
                  hp2n hjn he
                apply hnotin
                have : p = (i, j) := Prod.ext h2.1 h2.2
                rw [← this]
                exact hp
              · intro he
                have h2 := matrix_index_inj g.variables.length p.2 p.1 i j
                  hp1n hjn he
                omega
            have hframe_ji : ∀ p ∈ l2,
                matrix_index g.variables.length p.1 p.2 ≠
                  matrix_index g.variables.length j i ∧
                matrix_index g.variables.length p.2 p.1 ≠
                  matrix_index g.variables.length j i := by
              intro p hp
              obtain ⟨hp21, hp1n⟩ := hl2sub p hp
              have hp2n : p.2 < g.variables.length := Nat.lt_trans hp21 hp1n
              constructor
              · intro he
                have h2 := matrix_index_inj g.variables.length p.1 p.2 j i
                  hp2n hi he
                omega
              · intro he
                have h2 := matrix_index_inj g.variables.length p.2 p.1 j i
                  hp1n hi he
                apply hnotin
                have : p = (i, j) := Prod.ext h2.2 h2.1
                rw [← this]
                exact hp
            refine ⟨fcs, res, tr, rfl, hcc, ?_, ?_⟩
            · rw [buildStatusMatrix_frame fuel cursor g fcs g.variables.length
                l2 _ sm _ hbm2 hframe_ij]
              rw [List.getElem?_set_ne hne_idx]
              exact List.getElem?_set_eq_of_lt res.1 (by omega)
            · rw [buildStatusMatrix_frame fuel cursor g fcs g.variables.length
                l2 _ sm _ hbm2 hframe_ji]
              refine List.getElem?_set_eq_of_lt res.2 ?_
              simp only [List.length_set]
              omega
      · intro i hi
        have hii_lt : matrix_index g.variables.length i i <
            g.variables.length * g.variables.length :=
          matrix_index_lt _ i i hi hi
        have hframe : ∀ p ∈ pairsBelow g.variables.length,
            matrix_index g.variables.length p.1 p.2 ≠
              matrix_index g.variables.length i i ∧
            matrix_index g.variables.length p.2 p.1 ≠
              matrix_index g.variables.length i i := by
          intro p hp
          obtain ⟨hp21, hp1n⟩ := (pairsBelow_mem _ p).mp hp
          have hp2n : p.2 < g.variables.length := Nat.lt_trans hp21 hp1n
          constructor
          · intro he
            have h2 := matrix_index_inj g.variables.length p.1 p.2 i i
              hp2n hi he
            omega
          · intro he
            have h2 := matrix_index_inj g.variables.length p.2 p.1 i i
              hp1n hi he
            omega
        rw [buildStatusMatrix_frame fuel cursor g fcs g.variables.length
          (pairsBelow g.variables.length) _ sm _ hbm hframe]
        simp [List.getElem?_replicate, hii_lt]

/-- C8 witness: the layout evaluated on the concretely built two-token map;
in particular its diagonal entry (1, 1) holds the default status. -/
theorem constructor_matrix_layout_witness :
    mTwo.status_matrix[matrix_index gTwo.variables.length 1 1]? =
      some TokenConflictStatus.default :=
  (constructor_matrix_layout 2 cEmpty gTwo ftsTwo mTwo rfl).2.2.2.2 1 (by decide)

end TokenConflicts
